import Mathlib

/-!
Shallow embedding of the Charney–Eliassen (1949) stationary-wave notebook
(`Charney_Eliassen_1949.ipynb`).  The notebook is a single linear pipeline of
cells sharing global variables; the one user-set configuration value is the
latitude `latd` (the notebook uses 45).  We embed each cell's assignment as a
Lean definition, parametrised by `latd` where the cell's value depends on it.
Floating-point arithmetic is modelled by real arithmetic; the discrete Fourier
transform pair `scipy.fft` / `scipy.ifft` is modelled by the standard DFT with
kernel `exp (-2*pi*I/N)` and its inverse with kernel `exp (2*pi*I/N)` and the
`1/N` factor on the inverse.
-/

namespace CE

/-- Number of grid boxes (`n = 480`). -/
def n : ℕ := 480

instance : NeZero n := ⟨by norm_num [n]⟩

/-- Gravitational acceleration (`g = 9.8`). -/
def g : ℝ := 9.8

/-- Depth of atmosphere (`H = 8.e3`). -/
def H : ℝ := 8e3

/-- Earth's radius (`a = 6.371e6`). -/
def a : ℝ := 6.371e6

/-- Angular velocity (`omega = 2.*np.pi/86164.`). -/
noncomputable def omega : ℝ := 2 * Real.pi / 86164

/-- Latitude in radians (`latr = np.deg2rad(latd)`), as a function of the
configured latitude in degrees. -/
noncomputable def latr (latd : ℝ) : ℝ := latd * Real.pi / 180

/-- Coriolis parameter (`f0 = 2*omega*np.sin(latr)`). -/
noncomputable def f0 (latd : ℝ) : ℝ := 2 * omega * Real.sin (latr latd)

/-- Meridional gradient of the Coriolis parameter
(`beta = 2.*omega*np.cos(latr)/a`). -/
noncomputable def beta (latd : ℝ) : ℝ := 2 * omega * Real.cos (latr latd) / a

/-- Earth's circumference at the selected latitude
(`Lx = 2.*np.pi*a*np.cos(latr)`). -/
noncomputable def Lx (latd : ℝ) : ℝ := 2 * Real.pi * a * Real.cos (latr latd)

/-- Grid spacing (`dx = Lx/n`). -/
noncomputable def dx (latd : ℝ) : ℝ := Lx latd / n

/-- Number of elements of `np.arange(start, stop, step)` for a positive step:
the ceiling of `(stop - start)/step`. -/
noncomputable def arangeLen (start stop step : ℝ) : ℕ := ⌈(stop - start) / step⌉₊

/-- Element `i` of `np.arange(start, stop, step)`: `start + i*step`. -/
def arangeElt (start step : ℝ) (i : ℕ) : ℝ := start + i * step

/-- The grid produced by `np.arange(-Lx/2., Lx/2., dx)` for a generic domain
length `Lx` and resolution `n`: element `i` is `-Lx/2 + i*(Lx/n)`. -/
noncomputable def gridX (L : ℝ) (N : ℕ) (i : ℕ) : ℝ := arangeElt (-(L / 2)) (L / N) i

/-- The notebook's grid `x` (`x = np.arange(-Lx/2., Lx/2., dx)`). -/
noncomputable def x (latd : ℝ) (i : ℕ) : ℝ := gridX (Lx latd) n i

/-- Zonal wind (`u = 25.`). -/
def u : ℝ := 25

/-- Meridional wave number (`m = 2.*np.pi/8.e6`). -/
noncomputable def m : ℝ := 2 * Real.pi / 8e6

/-- Zonal wave number (`k = 2.*np.pi/Lx`). -/
noncomputable def k (latd : ℝ) : ℝ := 2 * Real.pi / Lx latd

/-- Stationary wavenumber squared (`Ks2 = beta/u`). -/
noncomputable def Ks2 (latd : ℝ) : ℝ := beta latd / u

/-- Total wavenumber squared, entry `j` of `K2 = (k*ns)**2. + m**2.`. -/
noncomputable def K2 (latd : ℝ) (j : ℕ) : ℝ := (k latd * j) ^ 2 + m ^ 2

/-- Damping time (`tau = 5.*86164.`). -/
def tau : ℝ := 5 * 86164

/-- Friction parameter (`r = 1./tau`). -/
noncomputable def r : ℝ := 1 / tau

/-- Entry `j` of the damping array: `eps = ns*0.` followed by
`eps[1:n] = r*K2[1:n]/(k*ns[1:n]*u)`, so entry 0 stays `0`. -/
noncomputable def eps (latd : ℝ) (j : ℕ) : ℝ :=
if j = 0 then 0 else r * K2 latd j / (k latd * j * u)

/-- Forward DFT of `scipy`'s `fft`: coefficient `j` is
`sum over t of h t * exp (-2*pi*I/N) ^ (j*t)`. -/
noncomputable def dft (N : ℕ) (h : Fin N → ℂ) (j : Fin N) : ℂ :=
∑ t : Fin N, h t * Complex.exp (-(2 * Real.pi * Complex.I) / N) ^ (j.val * t.val)

/-- Inverse DFT of `scipy`'s `ifft`: value `t` is
`(sum over j of s j * exp (2*pi*I/N) ^ (j*t)) / N`. -/
noncomputable def idft (N : ℕ) (s : Fin N → ℂ) (t : Fin N) : ℂ :=
(∑ j : Fin N, s j * Complex.exp (2 * Real.pi * Complex.I / N) ^ (j.val * t.val)) / N

/-- Topography spectrum with zonal mean removed:
`sh = fft(h)` followed by `sh[0] = 0.`. -/
noncomputable def sh (h : Fin n → ℝ) (j : Fin n) : ℂ :=
if j = 0 then 0 else dft n (fun t => (h t : ℂ)) j

/-- The per-coefficient transfer of the line
`spsi = f0*sh/(H*(K2 - Ks2 - 1j*eps))`, applied to an arbitrary spectrum. -/
noncomputable def transfer (latd : ℝ) (s : Fin n → ℂ) (j : Fin n) : ℂ :=
(f0 latd : ℂ) * s j /
  ((H : ℂ) * ((K2 latd j.val : ℂ) - (Ks2 latd : ℂ) - Complex.I * (eps latd j.val : ℂ)))

/-- The notebook's `spsi` (the transfer applied to the zero-mean topography
spectrum `sh`). -/
noncomputable def spsi (latd : ℝ) (h : Fin n → ℝ) : Fin n → ℂ :=
transfer latd (sh h)

/-- The notebook's result field (`psi = np.real(ifft(spsi))`). -/
noncomputable def psi (latd : ℝ) (h : Fin n → ℝ) (t : Fin n) : ℝ :=
(idft n (spsi latd h) t).re

/-- The spectral response as the spec words it: `spsi[j]` is
`f0*sh[j]/(H*(K2[j] - Ks2 - i*eps[j]))` with the `j = 0` coefficient zero. -/
noncomputable def spsiSpec (latd : ℝ) (h : Fin n → ℝ) (j : Fin n) : ℂ :=
if j = 0 then 0 else
  (f0 latd : ℂ) * sh h j /
    ((H : ℂ) * ((K2 latd j.val : ℂ) - (Ks2 latd : ℂ) - Complex.I * (eps latd j.val : ℂ)))

/-- Hermitian symmetry of a length-`n` spectrum: `s[-j] = conj (s[j])`
(indices mod `n`), the property that makes the inverse DFT real-valued. -/
def HermSym (s : Fin n → ℂ) : Prop :=
∀ j : Fin n, s (-j) = (starRingEnd ℂ) (s j)

/-- A concrete Hermitian spectrum: `1` at the self-conjugate index `240`
(`-240 = 240 mod 480`), `0` elsewhere. -/
noncomputable def sHerm : Fin n → ℂ :=
fun j => if j.val = 240 then 1 else 0

/-- The index `240` of `Fin n`. -/
def j240 : Fin n := ⟨240, by norm_num [n]⟩

/-- Mountain height (`h0 = 4.e3`). -/
def h0 : ℝ := 4e3

/-- Mountain width (`dx_h = 1.e6`). -/
def dx_h : ℝ := 1e6

/-- Strength of topographic forcing (`A = h0*dx_h`). -/
def A : ℝ := h0 * dx_h

/-- Height produced by `gaussian_topography` at physical coordinate `xc`:
`h = A*np.exp(-(x)**2/dx_h**2)/(np.pi**(0.5)*dx_h)`, with `np.pi**0.5`
modelled as `√π`. -/
noncomputable def gaussianH (xc : ℝ) : ℝ :=
A * Real.exp (-xc ^ 2 / dx_h ^ 2) / (Real.sqrt Real.pi * dx_h)

/-- The notebook's `gaussian_topography` array: the Gaussian height at each
grid coordinate. -/
noncomputable def gaussian_topography (latd : ℝ) (i : ℕ) : ℝ :=
gaussianH (x latd i)

/-- A NumPy float result: a finite value, a signed infinity, or NaN. -/
inductive PyVal where
| fin : ℝ → PyVal
| inf : PyVal
| ninf : PyVal
| nan : PyVal

/-- NumPy float division on the modelled values: a finite value divided by
zero yields a signed infinity (NaN for 0/0); no exception is raised. -/
noncomputable def pyDiv (p q : PyVal) : PyVal :=
match p, q with
| PyVal.fin av, PyVal.fin bv =>
    if bv = 0 then
      (if 0 < av then PyVal.inf else if av < 0 then PyVal.ninf else PyVal.nan)
    else PyVal.fin (av / bv)
| _, _ => PyVal.nan

/-- `Ks2 = beta/u` as the NumPy float computation it is, as a function of
the zonal wind value (the notebook fixes `u = 25`). -/
noncomputable def Ks2py (uv : ℝ) : PyVal :=
pyDiv (PyVal.fin (beta 45)) (PyVal.fin uv)

/-- Entry `j` of `eps` as the NumPy float computation it is
(`eps[1:n] = r*K2[1:n]/(k*ns[1:n]*u)`, entry 0 left at `0`), as a function
of the zonal wind value. -/
noncomputable def epsPy (uv : ℝ) (j : ℕ) : PyVal :=
if j = 0 then PyVal.fin 0
else pyDiv (PyVal.fin (r * K2 45 j)) (PyVal.fin (k 45 * j * uv))

/-- Element `i` of a rational list, `0` out of range. -/
def nth (l : List ℚ) (i : ℕ) : ℚ := l.getD i 0

/-- Index of the first minimum of a list (`np.argmin`); `0` on `[]`. -/
def argminIdx : List ℚ → ℕ
| [] => 0
| a :: t => if a ≤ t.foldl min a then 0 else argminIdx t + 1

/-- The nearest-latitude row index
(`iy = np.abs(ds.variables['latitude'][:]-latd).argmin()`). -/
def iyOf (lats : List ℚ) (latd : ℚ) : ℕ :=
argminIdx (lats.map (fun lv => |lv - latd|))

/-- The row indices of the Python slice `iy-5:iy+5` (in-range case): the ten
rows `iy-5, iy-4, ..., iy+4`. -/
def bandRows (iy : ℤ) : List ℤ :=
(List.range 10).map (fun t => iy - 5 + (t : ℤ))

/-- Gravitational acceleration as a rational, for the executable model. -/
def gRat : ℚ := 9.8

/-- The notebook's `world_topography` at longitude index `lon`:
`h = ds.variables['srfgeo'][0,iy-5:iy+5,:].mean(axis=0)/g`. -/
def world_topography (lats : List ℚ) (geo : ℤ → ℤ → ℚ) (latd : ℚ) (lon : ℤ) : ℚ :=
((bandRows (iyOf lats latd)).map (fun rr => geo rr lon)).sum / 10 / gRat

/-! Helper facts about the constants at the notebook's configured latitude
`latd = 45`. -/

lemma latr_45 : latr 45 = Real.pi / 4 := by
unfold latr; ring

lemma omega_pos : 0 < omega := by
unfold omega; positivity

lemma cos_latr_45_pos : 0 < Real.cos (latr 45) := by
rw [latr_45, Real.cos_pi_div_four]; positivity

lemma sin_latr_45_pos : 0 < Real.sin (latr 45) := by
rw [latr_45, Real.sin_pi_div_four]; positivity

lemma f0_45_pos : 0 < f0 45 := by
unfold f0; have := omega_pos; have := sin_latr_45_pos; positivity

lemma beta_45_pos : 0 < beta 45 := by
unfold beta a; have := omega_pos; have := cos_latr_45_pos; positivity

lemma Lx_45_pos : 0 < Lx 45 := by
unfold Lx a; have := cos_latr_45_pos; have := Real.pi_pos; positivity

lemma k_45_pos : 0 < k 45 := by
unfold k; have := Lx_45_pos; have := Real.pi_pos; positivity

lemma m_pos : 0 < m := by
unfold m; have := Real.pi_pos; positivity

lemma r_pos : 0 < r := by
unfold r tau; positivity

lemma K2_45_pos (j : ℕ) : 0 < K2 45 j := by
unfold K2; have := m_pos; positivity

lemma eps_45_pos (j : ℕ) (hj : 1 ≤ j) : 0 < eps 45 j := by
unfold eps
rw [if_neg (by omega)]
have hk := k_45_pos
have hK := K2_45_pos j
have hr := r_pos
have hj' : (0 : ℝ) < (j : ℝ) := by exact_mod_cast hj
have hu : (0 : ℝ) < u := by norm_num [u]
positivity

/-- Imaginary part of the complex denominator `H*(K2[j] - Ks2 - 1j*eps[j])`. -/
lemma denom_im (latd : ℝ) (j : ℕ) :
    ((H : ℂ) * ((K2 latd j : ℂ) - (Ks2 latd : ℂ) - Complex.I * (eps latd j : ℂ))).im
      = -(H * eps latd j) := by
simp [Complex.mul_im, Complex.mul_re, Complex.sub_im, Complex.sub_re]

lemma denom_45_ne_zero (j : ℕ) (hj : 1 ≤ j) :
    (H : ℂ) * ((K2 45 j : ℂ) - (Ks2 45 : ℂ) - Complex.I * (eps 45 j : ℂ)) ≠ 0 := by
intro hzero
have him := congrArg Complex.im hzero
rw [denom_im] at him
have hH : (0 : ℝ) < H := by norm_num [H]
have heps := eps_45_pos j hj
simp only [Complex.zero_im] at him
nlinarith

/-- C1: for every topography field `h` of length `n`, the notebook's `spsi`
equals the claimed formula `f0*sh[j]/(H*(K2[j]-Ks2-i*eps[j]))` at every `j`,
the `j = 0` coefficient stays zero, and the result field is the real part of
the inverse DFT of `spsi`. -/
theorem C1_spectral_response (h : Fin n → ℝ) :
    (∀ j : Fin n, spsi 45 h j = spsiSpec 45 h j) ∧
    spsi 45 h 0 = 0 ∧
    (∀ t : Fin n, psi 45 h t = (idft n (spsi 45 h) t).re) := by
refine ⟨?_, ?_, fun t => rfl⟩
· intro j
  by_cases hj : j = 0
  · subst hj
    simp [spsi, transfer, sh, spsiSpec]
  · simp [spsi, transfer, spsiSpec, hj]
· simp [spsi, transfer, sh]

/-- C3: the damping array has `eps[0] = 0` and, for `1 ≤ j ≤ n-1`,
`eps[j] = K2[j] / (tau * k_j * u)` with `k_j = 2*pi*j/Lx`. -/
theorem C3_damping_array (j : ℕ) (h1 : 1 ≤ j) (h2 : j ≤ n - 1)
    (htau : 0 < tau) (hu : u ≠ 0) :
    eps 45 0 = 0 ∧
    eps 45 j = K2 45 j / (tau * (2 * Real.pi * j / Lx 45) * u) := by
have hj0 : ¬ (j = 0) := by omega
have htau' : tau ≠ 0 := ne_of_gt htau
have hL : Lx 45 ≠ 0 := ne_of_gt Lx_45_pos
have hjR : (j : ℝ) ≠ 0 := Nat.cast_ne_zero.mpr hj0
have hpi : Real.pi ≠ 0 := Real.pi_ne_zero
refine ⟨by simp [eps], ?_⟩
simp only [eps, if_neg hj0, r, k]
field_simp
ring_nf
exact Or.inl trivial

/-- Witness for C3 at `j = 1`. -/
theorem C3_damping_array_witness :
    (1 : ℕ) ≤ 1 ∧
    eps 45 1 = K2 45 1 / (tau * (2 * Real.pi * ((1 : ℕ) : ℝ) / Lx 45) * u) :=
⟨le_refl 1,
  (C3_damping_array 1 (le_refl 1) (by norm_num [n]) (by norm_num [tau])
      (by norm_num [u])).2⟩

/-- C5: at latitude 0 the Coriolis parameter vanishes and the result field is
identically zero for every topography input. -/
theorem C5_equator_zero :
    f0 0 = 0 ∧ ∀ (h : Fin n → ℝ) (t : Fin n), psi 0 h t = 0 := by
have hf : f0 0 = 0 := by
  simp [f0, latr]
refine ⟨hf, fun h t => ?_⟩
have hs : ∀ j : Fin n, spsi 0 h j = 0 := by
  intro j
  simp [spsi, transfer, hf]
simp [psi, idft, hs]

/-- C6: for every positive even `N` and positive `L`, the grid
`np.arange(-L/2, L/2, L/N)` has exactly `N` elements, starts at `-L/2`, has
uniform spacing `L/N`, and every element lies in `[-L/2, L/2)`. -/
theorem C6_grid_builder (N : ℕ) (hN : 0 < N) (hNe : Even N) (L : ℝ) (hL : 0 < L) :
    arangeLen (-(L / 2)) (L / 2) (L / N) = N ∧
    gridX L N 0 = -(L / 2) ∧
    (∀ i : ℕ, gridX L N (i + 1) - gridX L N i = L / N) ∧
    (∀ i : ℕ, i < N → -(L / 2) ≤ gridX L N i ∧ gridX L N i < L / 2) := by
have hL0 : L ≠ 0 := ne_of_gt hL
have hN0 : (N : ℝ) ≠ 0 := Nat.cast_ne_zero.mpr hN.ne'
have hstep : 0 < L / N := by positivity
refine ⟨?_, ?_, ?_, ?_⟩
· unfold arangeLen
  have hq : (L / 2 - -(L / 2)) / (L / N) = (N : ℝ) := by
    field_simp
  rw [hq, Nat.ceil_natCast]
· simp [gridX, arangeElt]
· intro i
  simp only [gridX, arangeElt]
  push_cast
  ring
· intro i hi
  constructor
  · simp only [gridX, arangeElt]
    have : (0 : ℝ) ≤ i * (L / N) := by positivity
    linarith
  · simp only [gridX, arangeElt]
    have hiR : (i : ℝ) < (N : ℝ) := by exact_mod_cast hi
    have hmul : (i : ℝ) * (L / N) < (N : ℝ) * (L / N) :=
      mul_lt_mul_of_pos_right hiR hstep
    have hNL : (N : ℝ) * (L / N) = L := by field_simp
    linarith

/-- Witness for C6 at `N = 2`, `L = 1`. -/
theorem C6_grid_builder_witness :
    (0 < 2 ∧ Even 2 ∧ (0 : ℝ) < 1) ∧
    arangeLen (-(1 / 2 : ℝ)) ((1 : ℝ) / 2) ((1 : ℝ) / ((2 : ℕ) : ℝ)) = 2 :=
⟨⟨by norm_num, ⟨1, rfl⟩, by norm_num⟩,
  (C6_grid_builder 2 (by norm_num) ⟨1, rfl⟩ 1 (by norm_num)).1⟩

/-- C4: for `1 ≤ j ≤ n-1`, under `u > 0`, `tau > 0`, `m ≠ 0`, the damping
entry `eps[j]` is nonzero, the complex denominator
`H*(K2[j] - Ks2 - i*eps[j])` is nonzero, and the `j = 0` term of the
response is the zeroed DC component. -/
theorem C4_denominator_nonzero (j : ℕ) (h1 : 1 ≤ j) (h2 : j ≤ n - 1)
    (hu : 0 < u) (htau : 0 < tau) (hm : m ≠ 0) :
    eps 45 j ≠ 0 ∧
    (H : ℂ) * ((K2 45 j : ℂ) - (Ks2 45 : ℂ) - Complex.I * (eps 45 j : ℂ)) ≠ 0 ∧
    (∀ h : Fin n → ℝ, spsi 45 h 0 = 0) := by
refine ⟨(eps_45_pos j h1).ne', denom_45_ne_zero j h1, fun h => ?_⟩
simp [spsi, transfer, sh]

/-- Witness for C4 at `j = 1`. -/
theorem C4_denominator_nonzero_witness :
    (0 < u ∧ 0 < tau ∧ m ≠ 0) ∧
    (H : ℂ) * ((K2 45 1 : ℂ) - (Ks2 45 : ℂ) - Complex.I * (eps 45 1 : ℂ)) ≠ 0 :=
⟨⟨by norm_num [u], by norm_num [tau], m_pos.ne'⟩,
  (C4_denominator_nonzero 1 (le_refl 1) (by norm_num [n]) (by norm_num [u])
      (by norm_num [tau]) m_pos.ne').2.1⟩

/-! C2: Hermitian symmetry of the adjusted spectrum.  The transfer function
indexes `K2` and `eps` by the raw array index `j`, not by the aliased
wavenumber, so it does not preserve Hermitian symmetry. -/

lemma sHerm_herm : HermSym sHerm := by
intro j
have hn480 : n = 480 := rfl
have hlt : j.val < 480 := by
  have := j.isLt
  omega
have hneg : ((-j : Fin n)).val = (480 - j.val) % 480 := by
  rw [Fin.coe_neg]
  rfl
by_cases h240 : j.val = 240
· have : ((-j : Fin n)).val = 240 := by omega
  simp [sHerm, this, h240]
· have : ¬ (((-j : Fin n)).val = 240) := by omega
  simp [sHerm, this, h240]

/-- Core asymmetry fact: for any Hermitian spectrum `s` and index `j ≥ 1`
with `s j ≠ 0`, the transferred spectrum violates Hermitian symmetry at `j`,
because the imaginary parts of the denominators at `j` and `-j` have the
same sign instead of opposite signs. -/
lemma transfer_breaks_herm (s : Fin n → ℂ) (j : Fin n) (hj : 1 ≤ j.val)
    (hherm : HermSym s) (hs : s j ≠ 0) :
    transfer 45 s (-j) ≠ (starRingEnd ℂ) (transfer 45 s j) := by
have hn480 : n = 480 := rfl
have hjlt : j.val < 480 := by
  have := j.isLt
  omega
have hnegval : ((-j : Fin n)).val = 480 - j.val := by
  rw [Fin.coe_neg]
  show (480 - j.val) % 480 = 480 - j.val
  omega
have hneg1 : 1 ≤ ((-j : Fin n)).val := by omega
intro heq
have hD1 : (H : ℂ) * ((K2 45 j.val : ℂ) - (Ks2 45 : ℂ)
    - Complex.I * (eps 45 j.val : ℂ)) ≠ 0 := denom_45_ne_zero j.val hj
have hD2 : (H : ℂ) * ((K2 45 ((-j : Fin n)).val : ℂ) - (Ks2 45 : ℂ)
    - Complex.I * (eps 45 ((-j : Fin n)).val : ℂ)) ≠ 0 :=
  denom_45_ne_zero _ hneg1
have hconjD1 : (starRingEnd ℂ) ((H : ℂ) * ((K2 45 j.val : ℂ) - (Ks2 45 : ℂ)
    - Complex.I * (eps 45 j.val : ℂ))) ≠ 0 := by
  rw [starRingEnd_apply]
  exact star_ne_zero.mpr hD1
have hc : (starRingEnd ℂ) (s j) ≠ 0 := by
  rw [starRingEnd_apply]
  exact star_ne_zero.mpr hs
have hf0 : ((f0 45 : ℝ) : ℂ) ≠ 0 := by
  exact_mod_cast f0_45_pos.ne'
have ha : ((f0 45 : ℝ) : ℂ) * (starRingEnd ℂ) (s j) ≠ 0 := mul_ne_zero hf0 hc
have hconjT : (starRingEnd ℂ) ((f0 45 : ℂ) * s j
    / ((H : ℂ) * ((K2 45 j.val : ℂ) - (Ks2 45 : ℂ)
      - Complex.I * (eps 45 j.val : ℂ))))
    = (f0 45 : ℂ) * (starRingEnd ℂ) (s j)
    / (starRingEnd ℂ) ((H : ℂ) * ((K2 45 j.val : ℂ) - (Ks2 45 : ℂ)
      - Complex.I * (eps 45 j.val : ℂ))) := by
  simp only [map_div₀, map_mul, Complex.conj_ofReal]
simp only [transfer, hherm j] at heq
rw [hconjT] at heq
have hcross := (div_eq_div_iff hD2 hconjD1).mp heq
have hDeq : (starRingEnd ℂ) ((H : ℂ) * ((K2 45 j.val : ℂ) - (Ks2 45 : ℂ)
    - Complex.I * (eps 45 j.val : ℂ)))
    = (H : ℂ) * ((K2 45 ((-j : Fin n)).val : ℂ) - (Ks2 45 : ℂ)
    - Complex.I * (eps 45 ((-j : Fin n)).val : ℂ)) :=
  mul_left_cancel₀ ha hcross
have him := congrArg Complex.im hDeq
rw [Complex.conj_im, denom_im, denom_im] at him
have hP1 := eps_45_pos j.val hj
have hP2 := eps_45_pos ((-j : Fin n)).val hneg1
have hH : (0 : ℝ) < H := by norm_num [H]
nlinarith

/-- C2 counterexample: a concrete Hermitian-symmetric spectrum whose
transferred spectrum is not Hermitian-symmetric, refuting the claimed
symmetry property of the transfer function. -/
theorem C2_hermitian_cex :
    HermSym sHerm ∧ ¬ HermSym (transfer 45 sHerm) := by
refine ⟨sHerm_herm, fun hH => ?_⟩
have h1 : (1 : ℕ) ≤ j240.val := by norm_num [j240]
have hs : sHerm j240 ≠ 0 := by
  simp [sHerm, j240]
exact transfer_breaks_herm sHerm j240 h1 sHerm_herm hs (hH j240)

/-- C2 amended: the transfer does NOT preserve Hermitian symmetry.  For every
Hermitian spectrum `s` and index `j ≥ 1` with `s j ≠ 0`, the transferred
coefficient at `-j` differs from the conjugate of the one at `j`, so the
imaginary part of the inverse transform need not vanish. -/
theorem C2_transfer_not_hermitian (s : Fin n → ℂ) (j : Fin n) (hj : 1 ≤ j.val)
    (hherm : HermSym s) (hs : s j ≠ 0) :
    transfer 45 s (-j) ≠ (starRingEnd ℂ) (transfer 45 s j) :=
transfer_breaks_herm s j hj hherm hs

/-- Witness for the amended C2 at the concrete spectrum `sHerm`, `j = 240`. -/
theorem C2_transfer_not_hermitian_witness :
    (1 ≤ j240.val ∧ sHerm j240 ≠ 0) ∧
    transfer 45 sHerm (-j240) ≠ (starRingEnd ℂ) (transfer 45 sHerm j240) :=
⟨⟨by norm_num [j240], by simp [sHerm, j240]⟩,
  C2_transfer_not_hermitian sHerm j240 (by norm_num [j240]) sHerm_herm
    (by simp [sHerm, j240])⟩

/-! C10: the result field has exactly zero mean, because the DC coefficient
is zeroed before the transfer and stays zero through it. -/

/-- The values of the inverse DFT sum to zero whenever the DC coefficient of
the spectrum vanishes: summing over `t` turns each wavenumber `j ≠ 0` into a
full geometric sum of a nontrivial `N`-th root of unity, which is zero. -/
lemma sum_idft_eq_zero (N : ℕ) (hN : N ≠ 0) (s : Fin N → ℂ)
    (h0 : ∀ j : Fin N, j.val = 0 → s j = 0) :
    ∑ t : Fin N, idft N s t = 0 := by
have hprim : IsPrimitiveRoot (Complex.exp (2 * Real.pi * Complex.I / N)) N :=
  Complex.isPrimitiveRoot_exp N hN
unfold idft
rw [← Finset.sum_div, Finset.sum_comm]
have hz : ∀ j : Fin N,
    (∑ t : Fin N,
      s j * Complex.exp (2 * Real.pi * Complex.I / N) ^ (j.val * t.val)) = 0 := by
  intro j
  by_cases hj : j.val = 0
  · simp [h0 j hj]
  · rw [← Finset.mul_sum]
    have hxe : ∀ t : Fin N,
        Complex.exp (2 * Real.pi * Complex.I / N) ^ (j.val * t.val)
          = (Complex.exp (2 * Real.pi * Complex.I / N) ^ j.val) ^ t.val :=
      fun t => pow_mul _ _ _
    rw [Finset.sum_congr rfl (fun t _ => hxe t)]
    rw [Fin.sum_univ_eq_sum_range
      (fun i => (Complex.exp (2 * Real.pi * Complex.I / N) ^ j.val) ^ i) N]
    rw [geom_sum_eq
      (hprim.pow_ne_one_of_pos_of_lt (Nat.pos_of_ne_zero hj) j.isLt) N]
    rw [← pow_mul, mul_comm j.val N, pow_mul, hprim.pow_eq_one, one_pow]
    simp
rw [Finset.sum_congr rfl (fun j _ => hz j)]
simp

/-- C10: for every topography input, provided `m^2 ≠ Ks2`, the result field
`psi` sums to exactly zero over the grid, because the DC spectral coefficient
is zeroed before the transfer and `spsi[0]` stays zero. -/
theorem C10_zero_mean (hm : m ^ 2 ≠ Ks2 45) (h : Fin n → ℝ) :
    ∑ t : Fin n, psi 45 h t = 0 := by
have h0 : ∀ j : Fin n, j.val = 0 → spsi 45 h j = 0 := by
  intro j hj
  have hj' : j = 0 := by
    apply Fin.ext
    simpa using hj
  subst hj'
  simp [spsi, transfer, sh]
have hsum := sum_idft_eq_zero n (by norm_num [n]) (spsi 45 h) h0
unfold psi
rw [← Complex.re_sum, hsum]
simp

/-- At the notebook's parameters, `m^2` is strictly below the stationary
wavenumber `Ks2` (the claimed side condition `m^2 ≠ Ks2` indeed holds). -/
lemma m2_lt_Ks2_45 : m ^ 2 < Ks2 45 := by
have hppos := Real.pi_pos
have hp2 : Real.pi < 3.15 := Real.pi_lt_d2
have hs1 : (1.414 : ℝ) < Real.sqrt 2 :=
  (Real.lt_sqrt (by norm_num)).mpr (by norm_num)
have e1 : m ^ 2 = Real.pi ^ 2 / 16000000000000 := by
  rw [m]
  ring
have e2 : Ks2 45 = Real.pi * Real.sqrt 2 / 6861885550000 := by
  rw [Ks2, beta, omega, latr_45, Real.cos_pi_div_four, a, u]
  ring
rw [e1, e2, div_lt_div_iff₀ (by norm_num) (by norm_num)]
nlinarith [mul_lt_mul_of_pos_left hp2 hppos, mul_lt_mul_of_pos_left hs1 hppos]

/-- Witness for C10: the side condition `m^2 ≠ Ks2` holds at the notebook's
parameters and the zero topography sums to zero. -/
theorem C10_zero_mean_witness :
    m ^ 2 ≠ Ks2 45 ∧ ∑ t : Fin n, psi 45 (fun _ => 0) t = 0 :=
⟨m2_lt_Ks2_45.ne, C10_zero_mean m2_lt_Ks2_45.ne (fun _ => 0)⟩

/-! C8: the analytic Gaussian topography. -/

/-- C8: the Gaussian topography at `x = 0` equals `h0/√π`, that peak is
within 1% of 2256.8 m, and at every coordinate the height equals the spec's
formula `h0*dx_h*exp(-(x/dx_h)^2)/sqrt(pi*dx_h^2)`. -/
theorem C8_gaussian_topography :
    gaussianH 0 = h0 / Real.sqrt Real.pi ∧
    |gaussianH 0 - 2256.8| ≤ 0.01 * 2256.8 ∧
    (∀ xc : ℝ, gaussianH xc
      = h0 * dx_h * Real.exp (-(xc / dx_h) ^ 2) / Real.sqrt (Real.pi * dx_h ^ 2)) := by
have hd0 : (dx_h : ℝ) ≠ 0 := by norm_num [dx_h]
have hpeak : gaussianH 0 = h0 / Real.sqrt Real.pi := by
  rw [gaussianH, A]
  rw [show -(0 : ℝ) ^ 2 / dx_h ^ 2 = 0 by norm_num]
  rw [Real.exp_zero, mul_one]
  rw [mul_div_mul_right _ _ hd0]
have hlo : (1.772 : ℝ) < Real.sqrt Real.pi :=
  (Real.lt_sqrt (by norm_num)).mpr (by nlinarith [Real.pi_gt_d6])
have hhi : Real.sqrt Real.pi < 1.7725 :=
  (Real.sqrt_lt' (by norm_num)).mpr (by nlinarith [Real.pi_lt_d6])
have hspos : (0 : ℝ) < Real.sqrt Real.pi := by linarith
refine ⟨hpeak, ?_, ?_⟩
· rw [hpeak, h0]
  have hub : (4e3 : ℝ) / Real.sqrt Real.pi < 2270 := by
    rw [div_lt_iff₀ hspos]
    nlinarith
  have hlb : (2240 : ℝ) ≤ 4e3 / Real.sqrt Real.pi := by
    rw [le_div_iff₀ hspos]
    nlinarith
  rw [abs_le]
  constructor
  · linarith
  · linarith
· intro xc
  have hdnn : (0 : ℝ) ≤ dx_h := by norm_num [dx_h]
  have hsq : Real.sqrt (Real.pi * dx_h ^ 2) = Real.sqrt Real.pi * dx_h := by
    rw [Real.sqrt_mul Real.pi_pos.le, Real.sqrt_sq hdnn]
  rw [hsq, gaussianH, A]
  have harg : -xc ^ 2 / dx_h ^ 2 = -(xc / dx_h) ^ 2 := by
    rw [div_pow]
    ring
  rw [harg]

/-! C7: behaviour of the parameter derivation at `u = 0`.  The notebook has
no validation anywhere: `Ks2 = beta/u` and the `eps` assignment are plain
NumPy float divisions, which on a zero divisor emit a runtime warning and
return an infinity (or NaN for 0/0) — they raise no exception.  `PyVal`
models the NumPy float results relevant to these two lines. -/

/-- C7 counterexample: at `u = 0` the notebook's `Ks2` computation silently
returns positive infinity (NumPy float semantics); the computation has no
error outcome, so no DomainError is raised. -/
theorem C7_u_zero_cex : Ks2py 0 = PyVal.inf := by
simp only [Ks2py, pyDiv]
rw [if_pos trivial, if_pos beta_45_pos]

/-- C7 amended: invoking the derivation with `u = 0` silently produces
infinities instead of failing: every damping entry `eps[j]` with `j ≥ 1`
evaluates to positive infinity under NumPy float division. -/
theorem C7_u_zero_silent_inf (j : ℕ) (hj : 1 ≤ j) : epsPy 0 j = PyVal.inf := by
have hj0 : ¬ (j = 0) := by omega
simp only [epsPy, if_neg hj0, pyDiv]
rw [if_pos (mul_zero _), if_pos (mul_pos r_pos (K2_45_pos j))]

/-- Witness for the amended C7 at `j = 1`. -/
theorem C7_u_zero_silent_inf_witness : (1 : ℕ) ≤ 1 ∧ epsPy 0 1 = PyVal.inf :=
⟨le_refl 1, C7_u_zero_silent_inf 1 (le_refl 1)⟩

/-! C9: the external-data topography.  `world_topography` picks
`iy = np.abs(latitude - latd).argmin()` (first minimiser), then averages the
rows of the Python slice `iy-5:iy+5` — the ten rows `iy-5 .. iy+4`, which is
not symmetric about `iy` — and divides by `g`.  The dataset is modelled as a
latitude list and a total function on row/longitude indices (the in-range
case of the slice), with rational values so the selection is executable. -/

lemma nth_cons_zero (a : ℚ) (t : List ℚ) : nth (a :: t) 0 = a := rfl

lemma nth_cons_succ (a : ℚ) (t : List ℚ) (i : ℕ) : nth (a :: t) (i + 1) = nth t i := rfl

lemma nth_mem (l : List ℚ) : ∀ i : ℕ, i < l.length → nth l i ∈ l := by
induction l with
| nil => intro i hi; exact absurd hi (by simp)
| cons a t ih =>
  intro i hi
  cases i with
  | zero => exact List.mem_cons_self a t
  | succ i => exact List.mem_cons_of_mem a (ih i (by simpa using hi))

lemma nth_of_mem (l : List ℚ) : ∀ v : ℚ, v ∈ l → ∃ i : ℕ, i < l.length ∧ nth l i = v := by
induction l with
| nil => intro v hv; exact absurd hv (by simp)
| cons a t ih =>
  intro v hv
  rcases List.mem_cons.mp hv with hv | hv
  · exact ⟨0, by simp, hv.symm⟩
  · rcases ih v hv with ⟨i, hi, hnth⟩
    exact ⟨i + 1, by simpa using hi, hnth⟩

lemma foldl_min_le_init (t : List ℚ) : ∀ a : ℚ, t.foldl min a ≤ a := by
induction t with
| nil => intro a; exact le_refl a
| cons y t ih =>
  intro a
  exact le_trans (ih (min a y)) (min_le_left a y)

lemma foldl_min_le_mem (t : List ℚ) : ∀ a v : ℚ, v ∈ t → t.foldl min a ≤ v := by
induction t with
| nil => intro a v hv; exact absurd hv (by simp)
| cons y t ih =>
  intro a v hv
  rcases List.mem_cons.mp hv with hv | hv
  · subst hv
    exact le_trans (foldl_min_le_init t (min a v)) (min_le_right a v)
  · exact ih (min a y) v hv

lemma foldl_min_cases (t : List ℚ) : ∀ a : ℚ, t.foldl min a = a ∨ t.foldl min a ∈ t := by
induction t with
| nil => intro a; left; rfl
| cons y t ih =>
  intro a
  rcases ih (min a y) with h | h
  · rw [List.foldl_cons, h]
    rcases min_choice a y with h2 | h2
    · left; exact h2
    · right; rw [h2]; exact List.mem_cons_self y t
  · right
    rw [List.foldl_cons]
    exact List.mem_cons_of_mem y h

lemma argminIdx_lt_length : ∀ l : List ℚ, l ≠ [] → argminIdx l < l.length := by
intro l
induction l with
| nil => intro hl; exact absurd rfl hl
| cons a t ih =>
  intro hl
  by_cases hc : a ≤ t.foldl min a
  · simp [argminIdx, hc]
  · have ht : t ≠ [] := by
      intro h
      subst h
      exact hc (le_refl a)
    have := ih ht
    simp only [argminIdx, if_neg hc, List.length_cons]
    omega

/-- The entry at the argmin index is a lower bound for every entry. -/
lemma argminIdx_le (l : List ℚ) : ∀ i : ℕ, i < l.length → nth l (argminIdx l) ≤ nth l i := by
induction l with
| nil => intro i hi; exact absurd hi (by simp)
| cons a t ih =>
  intro i hi
  by_cases hc : a ≤ t.foldl min a
  · have hA : argminIdx (a :: t) = 0 := by simp [argminIdx, hc]
    rw [hA, nth_cons_zero]
    cases i with
    | zero => exact le_refl a
    | succ i =>
      rw [nth_cons_succ]
      have hit : i < t.length := by simpa using hi
      exact le_trans hc (foldl_min_le_mem t a _ (nth_mem t i hit))
  · have hA : argminIdx (a :: t) = argminIdx t + 1 := by simp [argminIdx, hc]
    rw [hA, nth_cons_succ]
    cases i with
    | zero =>
      rw [nth_cons_zero]
      have hlt : t.foldl min a < a := not_le.mp hc
      rcases foldl_min_cases t a with h | h
      · rw [h] at hlt
        exact absurd hlt (lt_irrefl a)
      · rcases nth_of_mem t _ h with ⟨i0, hi0, hn0⟩
        calc nth t (argminIdx t) ≤ nth t i0 := ih i0 hi0
        _ = t.foldl min a := hn0
        _ ≤ a := le_of_lt hlt
    | succ i =>
      rw [nth_cons_succ]
      exact ih i (by simpa using hi)

/-- `nth` commutes with mapping the absolute-difference function, in range. -/
lemma nth_map_absdiff (l : List ℚ) (c : ℚ) :
    ∀ i : ℕ, i < l.length → nth (l.map (fun v => |v - c|)) i = |nth l i - c| := by
induction l with
| nil => intro i hi; exact absurd hi (by simp)
| cons a t ih =>
  intro i hi
  cases i with
  | zero => rfl
  | succ i =>
    show nth (t.map (fun v => |v - c|)) i = |nth t i - c|
    exact ih i (by simpa using hi)

/-- C9 counterexample: the averaged band of `world_topography` is the slice
`iy-5:iy+5`, which contains the offset `-5` row but not the offset `+5` row;
it is not symmetric about the nearest index `iy` (here `iy = 10`). -/
theorem C9_band_cex :
    ((10 : ℤ) - 5) ∈ bandRows 10 ∧ ((10 : ℤ) + 5) ∉ bandRows 10 := by
decide

/-- C9 amended: `world_topography` selects the latitude row whose latitude is
nearest the target (first minimiser of the absolute difference), averages the
ten rows `iy-5 .. iy+4` of the slice `iy-5:iy+5` (a band that is NOT
symmetric about `iy`), and divides by `g`. -/
theorem C9_world_topography (lats : List ℚ) (geo : ℤ → ℤ → ℚ) (latd : ℚ) (lon : ℤ)
    (hne : lats ≠ []) :
    (∀ i : ℕ, i < lats.length →
        |nth lats (iyOf lats latd) - latd| ≤ |nth lats i - latd|) ∧
    bandRows (iyOf lats latd)
      = (List.range 10).map (fun t => ((iyOf lats latd : ℤ) - 5 + (t : ℤ))) ∧
    world_topography lats geo latd lon
      = ((bandRows (iyOf lats latd)).map (fun rr => geo rr lon)).sum / 10 / gRat := by
refine ⟨?_, rfl, rfl⟩
intro i hi
have hmlen : (lats.map (fun lv => |lv - latd|)).length = lats.length := by
  simp
have h1 := argminIdx_le (lats.map (fun lv => |lv - latd|)) i (by rw [hmlen]; exact hi)
have hargLt : argminIdx (lats.map (fun lv => |lv - latd|)) < lats.length := by
  have hne2 : lats.map (fun lv => |lv - latd|) ≠ [] := by
    simpa using hne
  have := argminIdx_lt_length _ hne2
  rw [hmlen] at this
  exact this
rw [nth_map_absdiff lats latd _ hargLt, nth_map_absdiff lats latd i hi] at h1
exact h1

/-- Witness for the amended C9 on a concrete three-row dataset. -/
theorem C9_world_topography_witness :
    (([40, 45, 50] : List ℚ) ≠ []) ∧
    bandRows (iyOf [40, 45, 50] 44)
      = (List.range 10).map (fun t => ((iyOf [40, 45, 50] 44 : ℤ) - 5 + (t : ℤ))) :=
⟨by simp,
  (C9_world_topography [40, 45, 50] (fun _ _ => 0) 44 0 (by simp)).2.1⟩

end CE
